import Mathlib

/-!
# Verification of the sync reconciler of the myfitness-app repository

This file gives a shallow embedding of the data-reconciliation module
(`src/js/modules/yandex-api.js`) of the fitness-tracking web application and
proves properties of it.

Modelling conventions:

* JS timestamp-valued fields (`date`, `updatedAt`, `timestamp`) hold strings
  that the source immediately feeds to `new Date(...)`; we model such a field
  by its parsed epoch value `Option Int`, where `none` stands for an absent
  field (JS `undefined`, whose `Date` is invalid / `NaN`).
* A JS `Map` is an insertion-ordered association list; `Map.set` on an
  existing key replaces the value in place, otherwise appends; `Map.get`
  returns the stored value; `Array.from(map.values())` is the list of values
  in insertion order.  Records without an `id` are stored under the key
  `undefined`, modelled as `none`.
* `Array.prototype.sort(cmp)` with the source's comparators is a stable sort
  by the comparator; where the comparator yields `NaN` (invalid dates) the
  ECMAScript result is unspecified, and the embedding fixes the consistent
  total preorder that places invalid dates first.
* The record fields that the reconciler never inspects (`deviceId`,
  `exercises`, the numeric body-analysis fields, ...) are abstracted into an
  opaque `payload`/`data` component that distinguishes records.
-/

set_option autoImplicit false

namespace MyFitness

/-- A workout record as seen by the reconciler: identity `id` (possibly
absent), timestamps `date` and `updatedAt`, and an opaque `payload`
abstracting the fields the merge never inspects. -/
structure Workout where
  id : Option String
  date : Option Int
  updatedAt : Option Int
  payload : Nat
  deriving DecidableEq, Repr

/-- A body-analysis record as seen by the reconciler: identity `id`, a
`timestamp`, and an opaque `data` component abstracting the numeric fields. -/
structure BodyAnalysis where
  id : Option String
  timestamp : Option Int
  data : Nat
  deriving DecidableEq, Repr

/-- The sync dataset: the JSON blob exchanged between local storage and the
remote disk.  Each collection is `Option`-valued because the source guards
every access with `... || []` (the field may be missing), and `extra` models
any further fields the JS object may carry. -/
structure Dataset where
  workouts : Option (List Workout)
  recentExercises : Option (List String)
  bodyAnalyses : Option (List BodyAnalysis)
  extra : List (String × String)
  deriving DecidableEq, Repr

/-! ## JS primitives used by the merge functions -/

/-- JS strict `Date` comparison `new Date(b) > new Date(a)` (the source's
`remoteDate > existingDate`): `false` whenever either side is invalid,
because every comparison against `NaN` is `false`. -/
def jsLt : Option Int → Option Int → Bool
  | some x, some y => x < y
  | _, _ => false

/-- The source expression `workout.updatedAt || workout.date`: use
`updatedAt` when present, else fall back to `date`. -/
def updatedOrDate (w : Workout) : Option Int :=
  match w.updatedAt with
  | some t => some t
  | none => w.date

/-- Descending comparator on parsed dates, modelling the source comparator
`(a, b) => new Date(b.x) - new Date(a.x)`: on valid dates, `a` may precede
`b` iff `date b ≤ date a`.  On invalid dates the ECMAScript sort result is
unspecified; the embedding fixes the consistent choice that invalid dates
compare as greatest (sorted first). -/
def descLe : Option Int → Option Int → Bool
  | some x, some y => y ≤ x
  | none, _ => true
  | some _, none => false

/-- Comparator of the workout sort `new Date(b.date) - new Date(a.date)`. -/
def workoutDateDesc (a b : Workout) : Bool := descLe a.date b.date

/-- Comparator of the body-analysis sort
`new Date(b.timestamp) - new Date(a.timestamp)`. -/
def analysisTsDesc (a b : BodyAnalysis) : Bool := descLe a.timestamp b.timestamp

/-! ## The JS `Map`, as an insertion-ordered association list -/

/-- Model of `Map.prototype.set`: replace in place when the key is present, else
append at the end (insertion order preserved). -/
def mapSet {κ α : Type} [DecidableEq κ] : List (κ × α) → κ → α → List (κ × α)
  | [], k, v => [(k, v)]
  | e :: m, k, v => if e.1 = k then (k, v) :: m else e :: mapSet m k v

/-- Model of `Map.prototype.get`: the value stored under the key, if any. -/
def mapGet {κ α : Type} [DecidableEq κ] : List (κ × α) → κ → Option α
  | [], _ => none
  | e :: m, k => if e.1 = k then some e.2 else mapGet m k

/-! ## The merge functions (source lines 313-435 of yandex-api.js)

`mergeWorkouts` and `mergeBodyAnalyses` are the same algorithm applied with
different key and timestamp projections; the embedding factors the shared
shape into `mergeKeyed` and instantiates it per the source. -/

/-- The first loop of both keyed merges:
`locals.forEach(w => map.set(key(w), w))`. -/
def buildMap {κ α : Type} [DecidableEq κ] (kf : α → κ) (xs : List α)
    (m : List (κ × α)) : List (κ × α) :=
  xs.foldl (fun m w => mapSet m (kf w) w) m

/-- One step of the second loop of both keyed merges: look the incoming
record up by key; insert it when new, otherwise replace the stored record
exactly when the incoming timestamp is strictly later. -/
def mergeStep {κ α : Type} [DecidableEq κ] (kf : α → κ) (tf : α → Option Int)
    (m : List (κ × α)) (w : α) : List (κ × α) :=
  match mapGet m (kf w) with
  | none => mapSet m (kf w) w
  | some existing => if jsLt (tf existing) (tf w) then mapSet m (kf w) w else m

/-- The shared shape of `mergeWorkouts` and `mergeBodyAnalyses`: build the
map from the local list, fold the remote list through `mergeStep`, then sort
the values by the descending comparator. -/
def mergeKeyed {κ α : Type} [DecidableEq κ] (kf : α → κ) (tf : α → Option Int)
    (sortLe : α → α → Bool) (locals remotes : List α) : List α :=
  let m := remotes.foldl (mergeStep kf tf) (buildMap kf locals [])
  List.insertionSort (fun a b => sortLe a b = true) (m.map Prod.snd)

/-- Source function `mergeWorkouts` (lines 359-388): key on `id`, compare by
`updatedAt || date`, sort by `date` descending. -/
def mergeWorkouts (localWorkouts remoteWorkouts : List Workout) : List Workout :=
  mergeKeyed Workout.id updatedOrDate workoutDateDesc localWorkouts remoteWorkouts

/-- Source function `mergeBodyAnalyses` (lines 407-435): key on `id`, compare by
`timestamp`, sort by `timestamp` descending. -/
def mergeBodyAnalyses (localAnalyses remoteAnalyses : List BodyAnalysis) :
    List BodyAnalysis :=
  mergeKeyed BodyAnalysis.id BodyAnalysis.timestamp analysisTsDesc
    localAnalyses remoteAnalyses

/-- Written from the claim's words, for comparison with the source function:
the body-analysis merge *keyed on `timestamp`* (rather than on `id`). -/
def mergeBodyAnalysesKeyedOnTimestamp (localAnalyses remoteAnalyses : List BodyAnalysis) :
    List BodyAnalysis :=
  mergeKeyed BodyAnalysis.timestamp BodyAnalysis.timestamp analysisTsDesc
    localAnalyses remoteAnalyses

/-- One step of the JS `Set` built in `mergeRecentExercises`: `Set.add`
keeps the first occurrence. -/
def setAdd (acc : List String) (x : String) : List String :=
  if x ∈ acc then acc else acc ++ [x]

/-- Source function `mergeRecentExercises` (lines 393-402): build a `Set` from the
concatenation of both lists (first occurrences kept, in insertion order),
then `slice(0, 10)`. -/
def mergeRecentExercises (localRecent remoteRecent : List String) : List String :=
  ((localRecent ++ remoteRecent).foldl setAdd []).take 10

/-- Source function `mergeData` (lines 313-354): when either side is absent return
the other unchanged; otherwise build a fresh object holding exactly the
three merged collections, reading a missing input collection as `[]`. -/
def mergeData (localData remoteData : Option Dataset) : Option Dataset :=
  match remoteData with
  | none => localData
  | some r =>
    match localData with
    | none => some r
    | some l =>
      some { workouts := some (mergeWorkouts (l.workouts.getD []) (r.workouts.getD []))
             recentExercises := some (mergeRecentExercises
               (l.recentExercises.getD []) (r.recentExercises.getD []))
             bodyAnalyses := some (mergeBodyAnalyses
               (l.bodyAnalyses.getD []) (r.bodyAnalyses.getD []))
             extra := [] }

/-! ## The sync orchestrator (source lines 260-308)

`syncData` and `loadData` perform HTTP effects; the embedding records the
disk operations each one issues, in order, and the `Except` layer models the
`throw` on a missing token.  `DiskOp.upload` carries the dataset whose JSON
serialization is sent (`JSON.stringify(localData)`); `writeLocal` would be a
write to browser storage (issued by neither function). -/

/-- A disk/storage operation issued by the orchestrator. -/
inductive DiskOp where
  | createFolder (path : String)
  | upload (path : String) (content : Dataset)
  | download (path : String)
  | writeLocal (content : Dataset)
  deriving DecidableEq, Repr

/-- Index of the last `/` in a list of characters, if any
(JS `String.prototype.lastIndexOf`). -/
def lastSlashIdx : List Char → Option Nat
  | [] => none
  | c :: rest =>
    match lastSlashIdx rest with
    | some i => some (i + 1)
    | none => if c = '/' then some 0 else none

/-- The source's `remotePath.substring(0, remotePath.lastIndexOf('/'))`
(the empty string when there is no slash, as in JS, where the index is `-1`
and a negative end is clamped to `0`). -/
def folderOf (p : String) : String :=
  match lastSlashIdx p.toList with
  | none => ""
  | some i => String.mk (p.toList.take i)

/-- Source method `syncData(localData, remotePath)` (lines 260-282): after the
token check it creates the parent folder of `remotePath` and uploads the
serialized *local* data there.  It issues no download and no local write. -/
def syncData (token : Option String) (localData : Dataset) (remotePath : String) :
    Except String (List DiskOp) :=
  match token with
  | none => Except.error "No token provided"
  | some _ =>
    Except.ok [DiskOp.createFolder (folderOf remotePath),
               DiskOp.upload remotePath localData]

/-- Source method `loadData(remotePath)` (lines 287-308): after the token check it
downloads the file at `remotePath` and returns its content, `none` when the
file is missing (HTTP 404).  `remote` is the current remote content. -/
def loadData (token : Option String) (remote : Option Dataset) (remotePath : String) :
    Except String (Option Dataset × List DiskOp) :=
  match token with
  | none => Except.error "No token provided"
  | some _ => Except.ok (remote, [DiskOp.download remotePath])

/-! ## Lemmas about the `Map` model -/

section MapLemmas

variable {κ α : Type} [DecidableEq κ]

theorem mapGet_mapSet (m : List (κ × α)) (k k' : κ) (v : α) :
    mapGet (mapSet m k v) k' = if k' = k then some v else mapGet m k' := by
  induction m with
  | nil =>
    by_cases h : k' = k
    · simp [mapSet, mapGet, h]
    · simp [mapSet, mapGet, h, Ne.symm h]
  | cons e m ih =>
    by_cases he : e.1 = k
    · by_cases h : k' = k
      · simp [mapSet, mapGet, he, h]
      · have he' : ¬ e.1 = k' := by rw [he]; exact Ne.symm h
        simp [mapSet, mapGet, he, h, he', Ne.symm h]
    · by_cases h : k' = k
      · subst h
        simp [mapSet, mapGet, he, ih]
      · simp [mapSet, mapGet, he, h, ih]

theorem mapSet_of_mapGet_none {m : List (κ × α)} {k : κ} (v : α)
    (h : mapGet m k = none) : mapSet m k v = m ++ [(k, v)] := by
  induction m with
  | nil => simp [mapSet]
  | cons e m ih =>
    by_cases he : e.1 = k
    · simp [mapGet, he] at h
    · simp only [mapGet, if_neg he] at h
      simp [mapSet, he, ih h]

theorem mapGet_append (m m' : List (κ × α)) (k : κ) :
    mapGet (m ++ m') k =
      match mapGet m k with
      | some v => some v
      | none => mapGet m' k := by
  induction m with
  | nil => simp [mapGet]
  | cons e m ih =>
    by_cases he : e.1 = k <;> simp [mapGet, he, ih]

theorem mapGet_eq_none_iff (m : List (κ × α)) (k : κ) :
    mapGet m k = none ↔ k ∉ m.map Prod.fst := by
  induction m with
  | nil => simp [mapGet]
  | cons e m ih =>
    by_cases he : e.1 = k
    · simp [mapGet, he]
    · rw [show mapGet (e :: m) k = mapGet m k by simp [mapGet, he], ih]
      simp only [List.map_cons, List.mem_cons]
      constructor
      · intro h hmem
        rcases hmem with h1 | h2
        · exact he h1.symm
        · exact h h2
      · intro h hmem
        exact h (Or.inr hmem)

theorem mem_of_mapGet_eq_some {m : List (κ × α)} {k : κ} {v : α}
    (h : mapGet m k = some v) : (k, v) ∈ m := by
  induction m with
  | nil => simp [mapGet] at h
  | cons e m ih =>
    obtain ⟨a, b⟩ := e
    by_cases he : a = k
    · simp [mapGet, he] at h
      subst he
      subst h
      exact List.mem_cons_self _ _
    · simp [mapGet, he] at h
      exact List.mem_cons_of_mem _ (ih h)

theorem mem_mapSet {m : List (κ × α)} {k : κ} {v : α} {e : κ × α}
    (h : e ∈ mapSet m k v) : e = (k, v) ∨ e ∈ m := by
  induction m with
  | nil => simpa [mapSet] using h
  | cons f m ih =>
    by_cases hf : f.1 = k
    · simp only [mapSet, if_pos hf, List.mem_cons] at h
      rcases h with h | h
      · exact Or.inl h
      · exact Or.inr (List.mem_cons_of_mem _ h)
    · simp only [mapSet, if_neg hf, List.mem_cons] at h
      rcases h with h | h
      · exact Or.inr (h ▸ List.mem_cons_self _ _)
      · rcases ih h with h' | h'
        · exact Or.inl h'
        · exact Or.inr (List.mem_cons_of_mem _ h')

theorem keys_mapSet (m : List (κ × α)) (k : κ) (v : α) :
    (mapSet m k v).map Prod.fst =
      if k ∈ m.map Prod.fst then m.map Prod.fst else m.map Prod.fst ++ [k] := by
  induction m with
  | nil => simp [mapSet]
  | cons e m ih =>
    by_cases he : e.1 = k
    · simp [mapSet, he]
    · have hke : ¬ k = e.1 := fun h => he h.symm
      by_cases hm : k ∈ m.map Prod.fst <;> simp [mapSet, he, ih, hm, hke]

theorem keysNodup_mapSet {m : List (κ × α)} {k : κ} (v : α)
    (h : (m.map Prod.fst).Nodup) : ((mapSet m k v).map Prod.fst).Nodup := by
  rw [keys_mapSet]
  by_cases hk : k ∈ m.map Prod.fst
  · simpa [hk] using h
  · rw [if_neg hk]
    exact List.Nodup.append h (List.nodup_singleton k)
      (List.disjoint_singleton.mpr hk)

theorem mapGet_ne_none_of_mem {m : List (κ × α)} {e : κ × α} (h : e ∈ m) :
    mapGet m e.1 ≠ none := by
  intro hnone
  rw [mapGet_eq_none_iff] at hnone
  exact hnone (List.mem_map_of_mem Prod.fst h)

/-- On a map whose keys are distinct and whose values sit under their own
key, filtering the values by a key yields exactly the stored value. -/
theorem values_filter_eq (kf : α → κ) (m : List (κ × α))
    (hkeys : (m.map Prod.fst).Nodup) (hinv : ∀ e ∈ m, kf e.2 = e.1) (k : κ) :
    (m.map Prod.snd).filter (fun x => decide (kf x = k)) =
      match mapGet m k with
      | some v => [v]
      | none => [] := by
  induction m with
  | nil => simp [mapGet]
  | cons e m ih =>
    have hek : kf e.2 = e.1 := hinv e (List.mem_cons_self _ _)
    have hkeys' : (m.map Prod.fst).Nodup := (List.nodup_cons.mp hkeys).2
    have hnot : e.1 ∉ m.map Prod.fst := (List.nodup_cons.mp hkeys).1
    have hinv' : ∀ f ∈ m, kf f.2 = f.1 := fun f hf => hinv f (List.mem_cons_of_mem _ hf)
    by_cases he : e.1 = k
    · have hval : decide (kf e.2 = k) = true := by simp [hek, he]
      have hrest : (m.map Prod.snd).filter (fun x => decide (kf x = k)) = [] := by
        rw [ih hkeys' hinv']
        have : mapGet m k = none := by
          rw [mapGet_eq_none_iff]
          rw [he] at hnot
          exact hnot
        simp [this]
      simp [mapGet, he, List.filter_cons, hval, hrest]
    · have hval : decide (kf e.2 = k) = false := by simp [hek, he]
      have := ih hkeys' hinv'
      simp [mapGet, he, List.filter_cons, hval, this]

end MapLemmas

/-! ## Lemmas about the two merge loops -/

section FoldLemmas

variable {κ α : Type} [DecidableEq κ]
variable (kf : α → κ) (tf : α → Option Int)

/-- Conflict resolution of one `mergeStep`, at the level of the looked-up
value: a fresh record is inserted; a strictly later record replaces the
stored one; otherwise the stored one stays. -/
def resolve (tf : α → Option Int) (old : Option α) (w : α) : Option α :=
  match old with
  | none => some w
  | some e => if jsLt (tf e) (tf w) then some w else some e

theorem resolve_ne_none (old : Option α) (w : α) : resolve tf old w ≠ none := by
  cases old with
  | none => simp [resolve]
  | some e =>
    by_cases hlt : jsLt (tf e) (tf w) <;> simp [resolve, hlt]

theorem mergeStep_eq_of_none {m : List (κ × α)} {w : α}
    (hg : mapGet m (kf w) = none) : mergeStep kf tf m w = mapSet m (kf w) w := by
  unfold mergeStep
  simp [hg]

theorem mergeStep_eq_of_some_lt {m : List (κ × α)} {w e : α}
    (hg : mapGet m (kf w) = some e) (hlt : jsLt (tf e) (tf w) = true) :
    mergeStep kf tf m w = mapSet m (kf w) w := by
  unfold mergeStep
  simp [hg, hlt]

theorem mergeStep_eq_of_some_ge {m : List (κ × α)} {w e : α}
    (hg : mapGet m (kf w) = some e) (hlt : jsLt (tf e) (tf w) = false) :
    mergeStep kf tf m w = m := by
  unfold mergeStep
  simp [hg, hlt]

theorem mapGet_mergeStep (m : List (κ × α)) (w : α) (k : κ) :
    mapGet (mergeStep kf tf m w) k =
      if k = kf w then resolve tf (mapGet m (kf w)) w else mapGet m k := by
  cases hg : mapGet m (kf w) with
  | none =>
    rw [mergeStep_eq_of_none kf tf hg, mapGet_mapSet]
    simp [resolve]
  | some e =>
    cases hlt : jsLt (tf e) (tf w) with
    | true =>
      rw [mergeStep_eq_of_some_lt kf tf hg hlt, mapGet_mapSet]
      simp [resolve, hlt]
    | false =>
      rw [mergeStep_eq_of_some_ge kf tf hg hlt]
      by_cases hk : k = kf w
      · subst hk
        simp [resolve, hg, hlt]
      · simp [hk]

theorem buildMap_cons (x : α) (xs : List α) (m : List (κ × α)) :
    buildMap kf (x :: xs) m = buildMap kf xs (mapSet m (kf x) x) := rfl

theorem mapGet_buildMap_not_mem (xs : List α) (m : List (κ × α)) (k : κ)
    (h : k ∉ xs.map kf) : mapGet (buildMap kf xs m) k = mapGet m k := by
  induction xs generalizing m with
  | nil => rfl
  | cons x xs ih =>
    simp only [List.map_cons, List.mem_cons] at h
    push_neg at h
    rw [buildMap_cons, ih _ h.2, mapGet_mapSet, if_neg h.1]

theorem mapGet_buildMap_none_iff (xs : List α) (m : List (κ × α)) (k : κ) :
    mapGet (buildMap kf xs m) k = none ↔ mapGet m k = none ∧ k ∉ xs.map kf := by
  induction xs generalizing m with
  | nil => simp [buildMap]
  | cons x xs ih =>
    rw [buildMap_cons, ih]
    by_cases hk : k = kf x
    · simp [mapGet_mapSet, hk]
    · simp only [mapGet_mapSet, if_neg hk, List.map_cons, List.mem_cons]
      constructor
      · rintro ⟨h1, h2⟩
        exact ⟨h1, fun hmem => hmem.elim hk h2⟩
      · rintro ⟨h1, h2⟩
        exact ⟨h1, fun hmem => h2 (Or.inr hmem)⟩

theorem mapGet_buildMap_of_mem {xs : List α} (m : List (κ × α)) {x : α} {k : κ}
    (hnd : (xs.map kf).Nodup) (hx : x ∈ xs) (hk : kf x = k) :
    mapGet (buildMap kf xs m) k = some x := by
  induction xs generalizing m with
  | nil => cases hx
  | cons y ys ih =>
    simp only [List.map_cons, List.nodup_cons] at hnd
    rcases List.mem_cons.mp hx with rfl | hmem
    · rw [buildMap_cons, mapGet_buildMap_not_mem kf ys _ k (hk ▸ hnd.1),
        mapGet_mapSet, hk, if_pos rfl]
    · rw [buildMap_cons]
      exact ih _ hnd.2 hmem

theorem mapGet_remFold_not_mem (rs : List α) (m : List (κ × α)) (k : κ)
    (h : k ∉ rs.map kf) :
    mapGet (rs.foldl (mergeStep kf tf) m) k = mapGet m k := by
  induction rs generalizing m with
  | nil => rfl
  | cons r rs ih =>
    simp only [List.map_cons, List.mem_cons] at h
    push_neg at h
    rw [List.foldl_cons, ih _ h.2, mapGet_mergeStep, if_neg h.1]

theorem mapGet_remFold_none_iff (rs : List α) (m : List (κ × α)) (k : κ) :
    mapGet (rs.foldl (mergeStep kf tf) m) k = none ↔
      mapGet m k = none ∧ k ∉ rs.map kf := by
  induction rs generalizing m with
  | nil => simp
  | cons r rs ih =>
    rw [List.foldl_cons, ih, mapGet_mergeStep]
    by_cases hk : k = kf r
    · rw [if_pos hk]
      simp only [List.map_cons, List.mem_cons]
      constructor
      · rintro ⟨h1, _⟩
        exact absurd h1 (resolve_ne_none tf _ r)
      · rintro ⟨_, h2⟩
        exact absurd (Or.inl hk) h2
    · rw [if_neg hk]
      simp only [List.map_cons, List.mem_cons]
      constructor
      · rintro ⟨h1, h2⟩
        exact ⟨h1, fun hmem => hmem.elim hk h2⟩
      · rintro ⟨h1, h2⟩
        exact ⟨h1, fun hmem => h2 (Or.inr hmem)⟩

theorem mapGet_remFold_of_mem {rs : List α} (m : List (κ × α)) {w : α} {k : κ}
    (hnd : (rs.map kf).Nodup) (hw : w ∈ rs) (hk : kf w = k) :
    mapGet (rs.foldl (mergeStep kf tf) m) k = resolve tf (mapGet m k) w := by
  induction rs generalizing m with
  | nil => cases hw
  | cons y ys ih =>
    simp only [List.map_cons, List.nodup_cons] at hnd
    rcases List.mem_cons.mp hw with rfl | hmem
    · rw [List.foldl_cons, mapGet_remFold_not_mem kf tf ys _ k (hk ▸ hnd.1),
        mapGet_mergeStep, hk, if_pos rfl]
    · have hky : k ≠ kf y := by
        intro hky
        exact hnd.1 (hky ▸ hk ▸ List.mem_map_of_mem kf hmem)
      rw [List.foldl_cons, ih _ hnd.2 hmem, mapGet_mergeStep, if_neg hky]

theorem inv_buildMap {xs : List α} {m : List (κ × α)}
    (hm : ∀ e ∈ m, kf e.2 = e.1) :
    ∀ e ∈ buildMap kf xs m, kf e.2 = e.1 := by
  induction xs generalizing m with
  | nil => exact hm
  | cons x xs ih =>
    rw [buildMap_cons]
    refine ih ?_
    intro e he
    rcases mem_mapSet he with rfl | hmem
    · rfl
    · exact hm e hmem

theorem inv_remFold {rs : List α} {m : List (κ × α)}
    (hm : ∀ e ∈ m, kf e.2 = e.1) :
    ∀ e ∈ rs.foldl (mergeStep kf tf) m, kf e.2 = e.1 := by
  induction rs generalizing m with
  | nil => exact hm
  | cons r rs ih =>
    rw [List.foldl_cons]
    refine ih ?_
    intro e he
    have hset : ∀ he' : e ∈ mapSet m (kf r) r, kf e.2 = e.1 := by
      intro he'
      rcases mem_mapSet he' with rfl | hmem
      · rfl
      · exact hm e hmem
    rcases hg : mapGet m (kf r) with _ | v
    · rw [mergeStep_eq_of_none kf tf hg] at he
      exact hset he
    · cases hlt : jsLt (tf v) (tf r) with
      | true =>
        rw [mergeStep_eq_of_some_lt kf tf hg hlt] at he
        exact hset he
      | false =>
        rw [mergeStep_eq_of_some_ge kf tf hg hlt] at he
        exact hm e he

theorem keysNodup_buildMap {xs : List α} {m : List (κ × α)}
    (hm : (m.map Prod.fst).Nodup) :
    ((buildMap kf xs m).map Prod.fst).Nodup := by
  induction xs generalizing m with
  | nil => exact hm
  | cons x xs ih =>
    rw [buildMap_cons]
    exact ih (keysNodup_mapSet _ hm)

theorem keysNodup_remFold {rs : List α} {m : List (κ × α)}
    (hm : (m.map Prod.fst).Nodup) :
    ((rs.foldl (mergeStep kf tf) m).map Prod.fst).Nodup := by
  induction rs generalizing m with
  | nil => exact hm
  | cons r rs ih =>
    rw [List.foldl_cons]
    refine ih ?_
    rcases hg : mapGet m (kf r) with _ | v
    · rw [mergeStep_eq_of_none kf tf hg]
      exact keysNodup_mapSet _ hm
    · cases hlt : jsLt (tf v) (tf r) with
      | true =>
        rw [mergeStep_eq_of_some_lt kf tf hg hlt]
        exact keysNodup_mapSet _ hm
      | false =>
        rw [mergeStep_eq_of_some_ge kf tf hg hlt]
        exact hm

end FoldLemmas

/-! ## Lemmas about `mergeKeyed` -/

section MergeKeyedLemmas

variable {κ α : Type} [DecidableEq κ]
variable (kf : α → κ) (tf : α → Option Int) (sortLe : α → α → Bool)

theorem jsLt_self (t : Option Int) : jsLt t t = false := by
  cases t with
  | none => rfl
  | some x => simp [jsLt]

/-- The map the two merge loops build, before sorting. -/
def mergeMap (locals remotes : List α) : List (κ × α) :=
  remotes.foldl (mergeStep kf tf) (buildMap kf locals [])

theorem mergeKeyed_eq (locals remotes : List α) :
    mergeKeyed kf tf sortLe locals remotes =
      List.insertionSort (fun a b => sortLe a b = true)
        ((mergeMap kf tf locals remotes).map Prod.snd) := rfl

theorem mergeKeyed_perm (locals remotes : List α) :
    (mergeKeyed kf tf sortLe locals remotes).Perm
      ((mergeMap kf tf locals remotes).map Prod.snd) :=
  List.perm_insertionSort _ _

theorem mem_mergeKeyed_iff (locals remotes : List α) (x : α) :
    x ∈ mergeKeyed kf tf sortLe locals remotes ↔
      x ∈ (mergeMap kf tf locals remotes).map Prod.snd :=
  (mergeKeyed_perm kf tf sortLe locals remotes).mem_iff

theorem keysNodup_mergeMap (locals remotes : List α) :
    ((mergeMap kf tf locals remotes).map Prod.fst).Nodup :=
  keysNodup_remFold kf tf (keysNodup_buildMap kf (by simp))

theorem inv_mergeMap (locals remotes : List α) :
    ∀ e ∈ mergeMap kf tf locals remotes, kf e.2 = e.1 :=
  inv_remFold kf tf (inv_buildMap kf (by simp))

theorem mapGet_mergeMap_none_iff (locals remotes : List α) (k : κ) :
    mapGet (mergeMap kf tf locals remotes) k = none ↔
      k ∉ locals.map kf ∧ k ∉ remotes.map kf := by
  unfold mergeMap
  rw [mapGet_remFold_none_iff, mapGet_buildMap_none_iff]
  simp [mapGet]

/-- The central conflict-resolution fact: when both sides hold a record
under the same key (and keys are unique within each list), the merged list
holds under that key exactly the remote record when its timestamp is
strictly later, and the local record otherwise. -/
theorem mergeKeyed_filter {locals remotes : List α} {wl wr : α} {k : κ}
    (hl : (locals.map kf).Nodup) (hr : (remotes.map kf).Nodup)
    (hwl : wl ∈ locals) (hwr : wr ∈ remotes)
    (hkl : kf wl = k) (hkr : kf wr = k) :
    (mergeKeyed kf tf sortLe locals remotes).filter (fun x => decide (kf x = k)) =
      [if jsLt (tf wl) (tf wr) then wr else wl] := by
  have h1 : mapGet (buildMap kf locals []) k = some wl :=
    mapGet_buildMap_of_mem kf _ hl hwl hkl
  have h2 : mapGet (mergeMap kf tf locals remotes) k =
      resolve tf (some wl) wr := by
    unfold mergeMap
    rw [mapGet_remFold_of_mem kf tf _ hr hwr hkr, h1]
  have h3 : ((mergeMap kf tf locals remotes).map Prod.snd).filter
      (fun x => decide (kf x = k)) =
      [if jsLt (tf wl) (tf wr) then wr else wl] := by
    rw [values_filter_eq kf _ (keysNodup_mergeMap kf tf locals remotes)
      (inv_mergeMap kf tf locals remotes) k, h2]
    by_cases hlt : jsLt (tf wl) (tf wr) <;> simp [resolve, hlt]
  have hperm := ((mergeKeyed_perm kf tf sortLe locals remotes).filter
    (fun x => decide (kf x = k)))
  rw [h3] at hperm
  exact List.perm_singleton.mp hperm

/-- The keys present in the merged list are exactly the keys present on
either side. -/
theorem exists_key_mergeKeyed (locals remotes : List α) (k : κ) :
    (∃ x, x ∈ mergeKeyed kf tf sortLe locals remotes ∧ kf x = k) ↔
      k ∈ locals.map kf ∨ k ∈ remotes.map kf := by
  constructor
  · rintro ⟨x, hx, hkx⟩
    rw [mem_mergeKeyed_iff] at hx
    obtain ⟨e, he, hex⟩ := List.mem_map.mp hx
    have hkey : kf x = e.1 := hex ▸ inv_mergeMap kf tf locals remotes e he
    have hne : mapGet (mergeMap kf tf locals remotes) k ≠ none := by
      rw [← hkx, hkey]
      exact mapGet_ne_none_of_mem he
    rw [Ne, mapGet_mergeMap_none_iff] at hne
    tauto
  · intro hmem
    have hne : mapGet (mergeMap kf tf locals remotes) k ≠ none := by
      rw [Ne, mapGet_mergeMap_none_iff]
      tauto
    obtain ⟨v, hv⟩ := Option.ne_none_iff_exists'.mp hne
    have hmemv : (k, v) ∈ mergeMap kf tf locals remotes :=
      mem_of_mapGet_eq_some hv
    refine ⟨v, ?_, inv_mergeMap kf tf locals remotes _ hmemv⟩
    rw [mem_mergeKeyed_iff]
    exact List.mem_map.mpr ⟨(k, v), hmemv, rfl⟩

/-- A record whose key is new on the local side (and unique on the remote
side) is inserted into the merged result. -/
theorem mem_mergeKeyed_of_fresh {locals remotes : List α} {w : α}
    (hr : (remotes.map kf).Nodup) (hw : w ∈ remotes)
    (hfresh : kf w ∉ locals.map kf) :
    w ∈ mergeKeyed kf tf sortLe locals remotes := by
  have h1 : mapGet (buildMap kf locals []) (kf w) = none := by
    rw [mapGet_buildMap_none_iff]
    exact ⟨rfl, hfresh⟩
  have h2 : mapGet (mergeMap kf tf locals remotes) (kf w) = some w := by
    unfold mergeMap
    rw [mapGet_remFold_of_mem kf tf _ hr hw rfl, h1]
    rfl
  rw [mem_mergeKeyed_iff]
  exact List.mem_map.mpr ⟨(kf w, w), mem_of_mapGet_eq_some h2, rfl⟩

/-- The merged list never holds two records with the same key. -/
theorem keys_mergeKeyed_nodup (locals remotes : List α) :
    ((mergeKeyed kf tf sortLe locals remotes).map kf).Nodup := by
  have hperm := (mergeKeyed_perm kf tf sortLe locals remotes).map kf
  rw [List.Perm.nodup_iff hperm, List.map_map]
  have : (mergeMap kf tf locals remotes).map (kf ∘ Prod.snd) =
      (mergeMap kf tf locals remotes).map Prod.fst :=
    List.map_congr_left (fun e he => inv_mergeMap kf tf locals remotes e he)
  rw [this]
  exact keysNodup_mergeMap kf tf locals remotes

/-- A generalized-accumulator form of the local loop: over fresh, pairwise
distinct keys the loop appends the records in order. -/
theorem buildMap_eq_append (xs : List α) (m : List (κ × α))
    (hnd : (xs.map kf).Nodup) (hfresh : ∀ w ∈ xs, mapGet m (kf w) = none) :
    buildMap kf xs m = m ++ xs.map (fun w => (kf w, w)) := by
  induction xs generalizing m with
  | nil => simp [buildMap]
  | cons x xs ih =>
    simp only [List.map_cons, List.nodup_cons] at hnd
    rw [buildMap_cons, mapSet_of_mapGet_none x (hfresh x (List.mem_cons_self _ _))]
    rw [ih _ hnd.2, List.append_assoc]
    · rfl
    · intro w hw
      rw [mapGet_append]
      rw [hfresh w (List.mem_cons_of_mem _ hw)]
      have : ¬ (kf x = kf w) := by
        intro hkk
        exact hnd.1 (hkk ▸ List.mem_map_of_mem kf hw)
      simp [mapGet, this]

/-- If every step of the remote loop finds an already-newer stored record,
the loop leaves the map unchanged. -/
theorem remFold_id {rs : List α} {m : List (κ × α)}
    (h : ∀ w ∈ rs, mergeStep kf tf m w = m) :
    rs.foldl (mergeStep kf tf) m = m := by
  induction rs with
  | nil => rfl
  | cons r rs ih =>
    rw [List.foldl_cons, h r (List.mem_cons_self _ _)]
    exact ih (fun w hw => h w (List.mem_cons_of_mem _ hw))

/-- Self-merge leaves the map of the local loop untouched: every remote
record finds itself in the map, and a record is never strictly later than
itself. -/
theorem mergeMap_self (X : List α) (hnd : (X.map kf).Nodup) :
    mergeMap kf tf X X = X.map (fun w => (kf w, w)) := by
  have hbuild : buildMap kf X [] = X.map (fun w => (kf w, w)) := by
    rw [buildMap_eq_append kf X [] hnd (fun w _ => rfl)]
    rfl
  unfold mergeMap
  rw [remFold_id]
  · exact hbuild
  · intro w hw
    have hget : mapGet (buildMap kf X []) (kf w) = some w :=
      mapGet_buildMap_of_mem kf _ hnd hw rfl
    exact mergeStep_eq_of_some_ge kf tf hget (jsLt_self (tf w))

theorem mergeKeyed_self_perm (X : List α) (hnd : (X.map kf).Nodup) :
    (mergeKeyed kf tf sortLe X X).Perm X := by
  have h := mergeKeyed_perm kf tf sortLe X X
  rw [mergeMap_self kf tf X hnd] at h
  have hmap : (X.map (fun w => (kf w, w))).map Prod.snd = X := by
    rw [List.map_map]
    exact List.map_id X
  rwa [hmap] at h

/-- The merged list is sorted by its comparator whenever the comparator is
transitive and total. -/
theorem sorted_mergeKeyed (locals remotes : List α)
    (htrans : ∀ a b c, sortLe a b = true → sortLe b c = true → sortLe a c = true)
    (htot : ∀ a b, sortLe a b = true ∨ sortLe b a = true) :
    (mergeKeyed kf tf sortLe locals remotes).Pairwise
      (fun a b => sortLe a b = true) := by
  haveI : IsTrans α (fun a b => sortLe a b = true) := ⟨htrans⟩
  haveI : IsTotal α (fun a b => sortLe a b = true) := ⟨htot⟩
  rw [mergeKeyed_eq]
  exact List.sorted_insertionSort _ _

end MergeKeyedLemmas

/-! ## The descending comparator is a total preorder -/

theorem descLe_trans {a b c : Option Int} (h1 : descLe a b = true)
    (h2 : descLe b c = true) : descLe a c = true := by
  cases a with
  | none => rfl
  | some x =>
    cases b with
    | none => simp [descLe] at h1
    | some y =>
      cases c with
      | none => exact h2
      | some z =>
        simp only [descLe, decide_eq_true_eq] at h1 h2 ⊢
        exact le_trans h2 h1

theorem descLe_total (a b : Option Int) :
    descLe a b = true ∨ descLe b a = true := by
  cases a with
  | none => exact Or.inl rfl
  | some x =>
    cases b with
    | none => exact Or.inr rfl
    | some y =>
      simp only [descLe, decide_eq_true_eq]
      exact le_total y x

/-! ## First-occurrence deduplication (the JS `Set` of `mergeRecentExercises`) -/

/-- Specification-side description of a JS `Set` built from a list: keep the
first occurrence of each element, in order. -/
def dedupKeepFirst : List String → List String
  | [] => []
  | x :: xs => x :: dedupKeepFirst (xs.filter (fun y => decide (y ≠ x)))
termination_by l => l.length
decreasing_by
  simp only [List.length_cons]
  exact Nat.lt_succ_of_le (List.length_filter_le _ _)

theorem foldl_setAdd_eq (l : List String) (acc : List String) :
    l.foldl setAdd acc =
      acc ++ dedupKeepFirst (l.filter (fun y => decide (y ∉ acc))) := by
  induction l generalizing acc with
  | nil => simp [dedupKeepFirst]
  | cons x xs ih =>
    by_cases hx : x ∈ acc
    · have hstep : setAdd acc x = acc := by simp [setAdd, hx]
      rw [List.foldl_cons, hstep, ih]
      have hfilter : (x :: xs).filter (fun y => decide (y ∉ acc)) =
          xs.filter (fun y => decide (y ∉ acc)) := by
        rw [List.filter_cons]
        simp [hx]
      rw [hfilter]
    · have hstep : setAdd acc x = acc ++ [x] := by simp [setAdd, hx]
      rw [List.foldl_cons, hstep, ih]
      have hfilter : (x :: xs).filter (fun y => decide (y ∉ acc)) =
          x :: xs.filter (fun y => decide (y ∉ acc)) := by
        rw [List.filter_cons]
        simp [hx]
      rw [hfilter]
      have hded : dedupKeepFirst (x :: xs.filter (fun y => decide (y ∉ acc))) =
          x :: dedupKeepFirst
            ((xs.filter (fun y => decide (y ∉ acc))).filter
              (fun y => decide (y ≠ x))) := by
        rw [dedupKeepFirst]
      rw [hded, List.append_assoc]
      have hff : (xs.filter (fun y => decide (y ∉ acc))).filter
            (fun y => decide (y ≠ x)) =
          xs.filter (fun y => decide (y ∉ acc ++ [x])) := by
        rw [List.filter_filter]
        refine List.filter_congr ?_
        intro y _
        by_cases hya : y ∈ acc <;> by_cases hyx : y = x <;>
          simp [hya, hyx]
      rw [hff]
      rfl

theorem jsSet_eq_dedupKeepFirst (l : List String) :
    l.foldl setAdd [] = dedupKeepFirst l := by
  rw [foldl_setAdd_eq]
  have : l.filter (fun y => decide (y ∉ ([] : List String))) = l := by
    refine List.filter_eq_self.mpr ?_
    intro y _
    simp
  rw [this]
  rfl

theorem nodup_foldl_setAdd (l : List String) (acc : List String)
    (h : acc.Nodup) : (l.foldl setAdd acc).Nodup := by
  induction l generalizing acc with
  | nil => exact h
  | cons x xs ih =>
    rw [List.foldl_cons]
    refine ih _ ?_
    by_cases hx : x ∈ acc
    · simpa [setAdd, hx] using h
    · rw [setAdd, if_neg hx]
      exact List.Nodup.append h (List.nodup_singleton x)
        (List.disjoint_singleton.mpr hx)

/-! ## The claims -/

/-- C3: for well-formed workout lists in which every record has an id, the
ids present in `mergeWorkouts local remote` are exactly the union of the ids
of `local` and of `remote`: no non-conflicting record is lost. -/
theorem C3_merged_ids_are_union (l r : List Workout)
    (_hl : ∀ w ∈ l, w.id.isSome) (_hr : ∀ w ∈ r, w.id.isSome) (i : String) :
    (∃ w, w ∈ mergeWorkouts l r ∧ w.id = some i) ↔
      (∃ w, w ∈ l ∧ w.id = some i) ∨ (∃ w, w ∈ r ∧ w.id = some i) := by
  have h := exists_key_mergeKeyed Workout.id updatedOrDate workoutDateDesc
    l r (some i)
  unfold mergeWorkouts
  rw [h]
  simp [List.mem_map]

theorem C3_merged_ids_are_union_witness :
    (∃ w, w ∈ mergeWorkouts [⟨some "a", some 1, none, 0⟩]
        [⟨some "b", some 2, none, 1⟩] ∧ w.id = some "b") ↔
      (∃ w, w ∈ [(⟨some "a", some 1, none, 0⟩ : Workout)] ∧ w.id = some "b") ∨
      (∃ w, w ∈ [(⟨some "b", some 2, none, 1⟩ : Workout)] ∧ w.id = some "b") :=
  C3_merged_ids_are_union [⟨some "a", some 1, none, 0⟩]
    [⟨some "b", some 2, none, 1⟩] (by decide) (by decide) "b"

/-- C4: merging a well-formed workout list with itself returns exactly its
elements, up to sort order. -/
theorem C4_self_merge_perm (X : List Workout)
    (hnd : (X.map Workout.id).Nodup)
    (_hts : ∀ w ∈ X, (updatedOrDate w).isSome) :
    (mergeWorkouts X X).Perm X :=
  mergeKeyed_self_perm Workout.id updatedOrDate workoutDateDesc X hnd

theorem C4_self_merge_perm_witness :
    (mergeWorkouts
      [⟨some "a", some 1, some 1, 0⟩, ⟨some "b", some 2, none, 1⟩]
      [⟨some "a", some 1, some 1, 0⟩, ⟨some "b", some 2, none, 1⟩]).Perm
      [⟨some "a", some 1, some 1, 0⟩, ⟨some "b", some 2, none, 1⟩] :=
  C4_self_merge_perm
    [⟨some "a", some 1, some 1, 0⟩, ⟨some "b", some 2, none, 1⟩]
    (by decide) (by decide)

/-- C5: `mergeData` returns the local dataset unchanged when the remote one
is absent, and the remote dataset unchanged when the local one is absent. -/
theorem C5_absent_side_identity (l r : Dataset) :
    mergeData (some l) none = some l ∧ mergeData none (some r) = some r :=
  ⟨rfl, rfl⟩

/-- C6: `mergeRecentExercises` concatenates local then remote, removes
duplicates keeping each element's first occurrence, and truncates to the
first 10 elements; hence the result has no duplicates and at most 10
entries, and the spec's example holds. -/
theorem C6_recent_exercises :
    (∀ l r : List String,
      mergeRecentExercises l r = (dedupKeepFirst (l ++ r)).take 10 ∧
      (mergeRecentExercises l r).Nodup ∧
      (mergeRecentExercises l r).length ≤ 10) ∧
    mergeRecentExercises ["x", "y"] ["y", "z"] = ["x", "y", "z"] := by
  refine ⟨fun l r => ⟨?_, ?_, ?_⟩, by decide⟩
  · unfold mergeRecentExercises
    rw [jsSet_eq_dedupKeepFirst]
  · exact List.Nodup.sublist (List.take_sublist _ _)
      (nodup_foldl_setAdd _ [] List.nodup_nil)
  · exact List.length_take_le _ _

/-- C9: the merged workout and body-analysis lists hold at most one record
per id, even when an input list repeats an id. -/
theorem C9_merged_ids_nodup (lw rw : List Workout)
    (la ra : List BodyAnalysis) :
    ((mergeWorkouts lw rw).map Workout.id).Nodup ∧
    ((mergeBodyAnalyses la ra).map BodyAnalysis.id).Nodup :=
  ⟨keys_mergeKeyed_nodup Workout.id updatedOrDate workoutDateDesc lw rw,
   keys_mergeKeyed_nodup BodyAnalysis.id BodyAnalysis.timestamp analysisTsDesc
     la ra⟩

/-- C10: with both sides present, `mergeData` returns an object holding
exactly the three merged collections — a missing input collection is read as
the empty list, and any extra field of either input is dropped — while a
one-side-absent merge returns the surviving dataset whole. -/
theorem C10_mergeData_shape (l r : Dataset) :
    mergeData (some l) (some r) =
      some { workouts := some (mergeWorkouts
               (l.workouts.getD []) (r.workouts.getD []))
             recentExercises := some (mergeRecentExercises
               (l.recentExercises.getD []) (r.recentExercises.getD []))
             bodyAnalyses := some (mergeBodyAnalyses
               (l.bodyAnalyses.getD []) (r.bodyAnalyses.getD []))
             extra := [] } ∧
    mergeData (some l) none = some l :=
  ⟨rfl, rfl⟩

/-- C1 (counterexample): `mergeBodyAnalyses` is *not* keyed on `timestamp`.
Two analyses sharing an id but with different timestamps are merged into a
single record by the source function, whereas the merge keyed on `timestamp`
written from the claim's words keeps both. -/
theorem C1_counterexample :
    mergeBodyAnalyses [⟨some "a", some 100, 0⟩] [⟨some "a", some 200, 1⟩] =
      [⟨some "a", some 200, 1⟩] ∧
    mergeBodyAnalysesKeyedOnTimestamp [⟨some "a", some 100, 0⟩]
        [⟨some "a", some 200, 1⟩] =
      [⟨some "a", some 200, 1⟩, ⟨some "a", some 100, 0⟩] ∧
    mergeBodyAnalysesKeyedOnTimestamp [⟨some "a", some 100, 0⟩]
        [⟨some "a", some 200, 1⟩] ≠
      mergeBodyAnalyses [⟨some "a", some 100, 0⟩] [⟨some "a", some 200, 1⟩] := by
  refine ⟨by decide, by decide, by decide⟩

/-- C1 (amended): whenever a local and a remote workout share an id, the
merged list keeps exactly the one whose `updatedAt` (falling back to `date`)
is strictly later, the local copy on an exact tie; the same rule governs
`mergeBodyAnalyses`, which is keyed on `id` and compared by `timestamp`. -/
theorem C1_conflict_resolution :
    (∀ (l r : List Workout) (wl wr : Workout) (k : Option String) (tl tr : Int),
      (l.map Workout.id).Nodup → (r.map Workout.id).Nodup →
      wl ∈ l → wr ∈ r → wl.id = k → wr.id = k →
      updatedOrDate wl = some tl → updatedOrDate wr = some tr →
      (mergeWorkouts l r).filter (fun x => decide (x.id = k)) =
        [if tl < tr then wr else wl]) ∧
    (∀ (l r : List BodyAnalysis) (al ar : BodyAnalysis) (k : Option String)
        (tl tr : Int),
      (l.map BodyAnalysis.id).Nodup → (r.map BodyAnalysis.id).Nodup →
      al ∈ l → ar ∈ r → al.id = k → ar.id = k →
      al.timestamp = some tl → ar.timestamp = some tr →
      (mergeBodyAnalyses l r).filter (fun x => decide (x.id = k)) =
        [if tl < tr then ar else al]) := by
  constructor
  · intro l r wl wr k tl tr hndl hndr hwl hwr hkl hkr htl htr
    have h := mergeKeyed_filter Workout.id updatedOrDate workoutDateDesc
      hndl hndr hwl hwr hkl hkr
    rw [htl, htr] at h
    unfold mergeWorkouts
    rw [h]
    by_cases hlt : tl < tr <;> simp [jsLt, hlt]
  · intro l r al ar k tl tr hndl hndr hal har hkl hkr htl htr
    have h := mergeKeyed_filter BodyAnalysis.id BodyAnalysis.timestamp
      analysisTsDesc hndl hndr hal har hkl hkr
    rw [htl, htr] at h
    unfold mergeBodyAnalyses
    rw [h]
    by_cases hlt : tl < tr <;> simp [jsLt, hlt]

theorem C1_conflict_resolution_witness :
    (mergeWorkouts [⟨some "a", some 0, some 10, 0⟩]
        [⟨some "a", some 0, some 20, 1⟩]).filter
        (fun x => decide (x.id = some "a")) =
      [⟨some "a", some 0, some 20, 1⟩] := by
  have h := C1_conflict_resolution.1 [⟨some "a", some 0, some 10, 0⟩]
    [⟨some "a", some 0, some 20, 1⟩] ⟨some "a", some 0, some 10, 0⟩
    ⟨some "a", some 0, some 20, 1⟩ (some "a") 10 20 (by decide) (by decide)
    (by decide) (by decide) rfl rfl rfl rfl
  simpa using h

/-- C2 (counterexample): one call of `syncData` only creates the remote
folder and uploads the raw local dataset; its operation trace holds no
download and no local write, and the uploaded content differs from the
merged dataset whenever merging would change anything. -/
theorem C2_counterexample :
    syncData (some "token")
        { workouts := some [⟨some "a", some 1, some 1, 0⟩]
          recentExercises := some []
          bodyAnalyses := some []
          extra := [] } "/MyFitness/data.json" =
      Except.ok [DiskOp.createFolder "/MyFitness",
        DiskOp.upload "/MyFitness/data.json"
          { workouts := some [⟨some "a", some 1, some 1, 0⟩]
            recentExercises := some []
            bodyAnalyses := some []
            extra := [] }] ∧
    mergeData
        (some { workouts := some [⟨some "a", some 1, some 1, 0⟩]
                recentExercises := some []
                bodyAnalyses := some []
                extra := [] })
        (some { workouts := some [⟨some "b", some 2, some 2, 1⟩]
                recentExercises := some []
                bodyAnalyses := some []
                extra := [] }) ≠
      some { workouts := some [⟨some "a", some 1, some 1, 0⟩]
             recentExercises := some []
             bodyAnalyses := some []
             extra := [] } := by
  refine ⟨rfl, by decide⟩

/-- C2 (amended): `syncData` creates the parent folder of the remote path
and uploads the local dataset as-is; it performs no fetch of the remote blob
and no local write, and throws only on a missing token.  Fetching the remote
blob is the separate operation `loadData`. -/
theorem C2_syncData_uploads_local :
    (∀ (t : String) (l : Dataset) (p : String),
      syncData (some t) l p =
        Except.ok [DiskOp.createFolder (folderOf p), DiskOp.upload p l]) ∧
    (∀ (l : Dataset) (p : String),
      syncData none l p = Except.error "No token provided") ∧
    (∀ (t : String) (remote : Option Dataset) (p : String),
      loadData (some t) remote p = Except.ok (remote, [DiskOp.download p])) :=
  ⟨fun _ _ _ => rfl, fun _ _ => rfl, fun _ _ _ => rfl⟩

/-- C7: the merged workout list is ordered newest-first by `date`, and the
merged body-analysis list newest-first by `timestamp` (stated on the parsed
values, so it says exactly this for well-formed inputs). -/
theorem C7_sorted_desc :
    (∀ (l r : List Workout),
      (∀ w ∈ l, w.date.isSome) → (∀ w ∈ r, w.date.isSome) →
      (mergeWorkouts l r).Pairwise
        (fun a b => ∀ x y, a.date = some x → b.date = some y → y ≤ x)) ∧
    (∀ (l r : List BodyAnalysis),
      (∀ w ∈ l, w.timestamp.isSome) → (∀ w ∈ r, w.timestamp.isSome) →
      (mergeBodyAnalyses l r).Pairwise
        (fun a b => ∀ x y, a.timestamp = some x → b.timestamp = some y → y ≤ x)) := by
  constructor
  · intro l r _ _
    have h := sorted_mergeKeyed Workout.id updatedOrDate workoutDateDesc l r
      (fun a b c h1 h2 => descLe_trans h1 h2)
      (fun a b => descLe_total a.date b.date)
    refine (List.Pairwise.imp ?_ h)
    intro a b hab x y hx hy
    rw [workoutDateDesc, hx, hy] at hab
    simpa [descLe] using hab
  · intro l r _ _
    have h := sorted_mergeKeyed BodyAnalysis.id BodyAnalysis.timestamp
      analysisTsDesc l r
      (fun a b c h1 h2 => descLe_trans h1 h2)
      (fun a b => descLe_total a.timestamp b.timestamp)
    refine (List.Pairwise.imp ?_ h)
    intro a b hab x y hx hy
    rw [analysisTsDesc, hx, hy] at hab
    simpa [descLe] using hab

theorem C7_sorted_desc_witness :
    (mergeWorkouts [⟨some "a", some 5, none, 0⟩]
        [⟨some "b", some 9, none, 1⟩]).Pairwise
      (fun a b => ∀ x y, a.date = some x → b.date = some y → y ≤ x) :=
  C7_sorted_desc.1 [⟨some "a", some 5, none, 0⟩] [⟨some "b", some 9, none, 1⟩]
    (by decide) (by decide)

/-- C8 (counterexample): a malformed remote workout lacking an `id` is *not*
treated as new: it collides with an id-less local record under the
`undefined` key and is dropped when its timestamp is not strictly later. -/
theorem C8_counterexample :
    mergeWorkouts [⟨none, some 5, none, 0⟩] [⟨none, some 0, none, 1⟩] =
      [⟨none, some 5, none, 0⟩] ∧
    (⟨none, some 0, none, 1⟩ : Workout) ∉
      mergeWorkouts [⟨none, some 5, none, 0⟩] [⟨none, some 0, none, 1⟩] := by
  refine ⟨by decide, by decide⟩

/-- C8 (amended): the merges are total functions — no input makes them throw
— and a record (malformed or not) is inserted as new whenever its possibly
absent id does not occur on the other side and is unique on its own side;
id-less records all share the `undefined` key, so they conflict with each
other and are then resolved by the timestamp comparison, which keeps the
already-stored copy when either timestamp is invalid. -/
theorem C8_malformed_tolerated :
    (∀ (l r : List Workout) (w : Workout),
      w ∈ r → (r.map Workout.id).Nodup → w.id ∉ l.map Workout.id →
      w ∈ mergeWorkouts l r) ∧
    (∀ (l r : List BodyAnalysis) (a : BodyAnalysis),
      a ∈ r → (r.map BodyAnalysis.id).Nodup → a.id ∉ l.map BodyAnalysis.id →
      a ∈ mergeBodyAnalyses l r) :=
  ⟨fun _ _ _ hw hnd hfresh =>
    mem_mergeKeyed_of_fresh Workout.id updatedOrDate workoutDateDesc
      hnd hw hfresh,
   fun _ _ _ ha hnd hfresh =>
    mem_mergeKeyed_of_fresh BodyAnalysis.id BodyAnalysis.timestamp
      analysisTsDesc hnd ha hfresh⟩

theorem C8_malformed_tolerated_witness :
    (⟨none, none, none, 1⟩ : Workout) ∈
      mergeWorkouts [⟨some "a", some 1, none, 0⟩] [⟨none, none, none, 1⟩] :=
  C8_malformed_tolerated.1 [⟨some "a", some 1, none, 0⟩] [⟨none, none, none, 1⟩]
    ⟨none, none, none, 1⟩ (by decide) (by decide) (by decide)

end MyFitness
